import Mathlib

/-!
Verification of the tweet store contract (`src/lib.rs`): data model,
create/like/delete mutations, and the paginated read operations, embedded
shallowly. Machine integers are `Nat`; the one place where 64-bit overflow
is the subject of a property (the `likes` counter) carries an explicit
`% 2 ^ 64`.
-/

/-- u64 modulus, for the places where 64-bit wraparound is modelled. -/
def u64Mod : Nat := 2 ^ 64

/-- Embeds `struct Tweet` from `src/lib.rs`: id, author (`AccountId` as a
string), text, timestamp (nanoseconds as `Nat`), and the likes counter. -/
structure Tweet where
  id : Nat
  author : String
  text : String
  timestamp : Nat
  likes : Nat
deriving Repr, DecidableEq

/-- Modelled from the spec: the contract stores tweets in
`near_sdk::store::IterableMap<u64, Tweet>`, whose implementation is not part
of this repository. The spec pins its observable contract ("enumeration
order must be stable and must equal ascending insertion order (id order)"),
so the map is embedded as an association list in insertion order: lookup
finds the entry with the key, insertion of a fresh key appends, and removal
deletes the entry while preserving the order of the remaining entries. -/
structure IterableMap where
  entries : List (Nat × Tweet)
deriving Repr, DecidableEq

/-- Lookup by key: the value of the first (unique) entry with this key. -/
def IterableMap.get (m : IterableMap) (k : Nat) : Option Tweet :=
  (m.entries.find? (fun e => e.1 = k)).map Prod.snd

/-- Map insertion: replace the value if the key is present, else append the
new entry at the end (insertion order). -/
def IterableMap.insert (m : IterableMap) (k : Nat) (v : Tweet) : IterableMap :=
  if m.entries.any (fun e => e.1 = k) then
    ⟨m.entries.map (fun e => if e.1 = k then (e.1, v) else e)⟩
  else
    ⟨m.entries ++ [(k, v)]⟩

/-- In-place update of the value stored at a key (the embedding of mutating
through `get_mut`); keys and their order are untouched. -/
def IterableMap.updateValue (m : IterableMap) (k : Nat) (v : Tweet) : IterableMap :=
  ⟨m.entries.map (fun e => if e.1 = k then (e.1, v) else e)⟩

/-- Removal of a key, preserving the order of the remaining entries. -/
def IterableMap.remove (m : IterableMap) (k : Nat) : IterableMap :=
  ⟨m.entries.filter (fun e => ¬ e.1 = k)⟩

/-- Enumeration of the map, in its stored (insertion) order. -/
def IterableMap.iter (m : IterableMap) : List (Nat × Tweet) := m.entries

/-- Embeds `struct TwitterContract`: the tweet map and the id allocator. -/
structure TwitterContract where
  tweets : IterableMap
  next_tweet_id : Nat
deriving Repr, DecidableEq

/-- Embeds `TwitterContract::new`: empty map, ids start at 0. -/
def TwitterContract.new : TwitterContract := ⟨⟨[]⟩, 0⟩

/-- Embeds `post_tweet`. The host-supplied inputs (`env::predecessor_account_id`,
`env::block_timestamp`) are explicit arguments. Returns the created tweet
together with the updated state; the log write has no effect on state. -/
def post_tweet (s : TwitterContract) (author text : String) (timestamp : Nat) :
    Tweet × TwitterContract :=
  let tweet_id := s.next_tweet_id
  let new_tweet : Tweet :=
    { id := tweet_id, author := author, text := text, timestamp := timestamp, likes := 0 }
  (new_tweet, ⟨s.tweets.insert tweet_id new_tweet, s.next_tweet_id + 1⟩)

/-- Embeds `like_tweet`: if the id is present, increment its likes counter
in place (`tweet.likes += 1`, an unguarded u64 addition, hence `% 2 ^ 64`)
and return the updated tweet; otherwise return `none` and leave the state
untouched. -/
def like_tweet (s : TwitterContract) (tweet_id : Nat) :
    Option Tweet × TwitterContract :=
  match s.tweets.get tweet_id with
  | some tweet =>
    let updated : Tweet := { tweet with likes := (tweet.likes + 1) % u64Mod }
    (some updated, ⟨s.tweets.updateValue tweet_id updated, s.next_tweet_id⟩)
  | none => (none, s)

/-- Embeds `delete_tweet`. The caller (`env::predecessor_account_id`) is an
explicit argument. Present and authored by the caller: remove the entry;
present but another author, or absent: no state change. The function is
total — every call completes normally, there is no error value. -/
def delete_tweet (s : TwitterContract) (tweet_id : Nat) (caller : String) :
    TwitterContract :=
  match s.tweets.get tweet_id with
  | some tweet =>
    if tweet.author = caller then ⟨s.tweets.remove tweet_id, s.next_tweet_id⟩
    else s
  | none => s

/-- Embeds `get_all_tweets`: defaults `from_index = 0`, `limit = 10`, then
`iter().skip(start).take(limit_val)`, returning the tweets. A view method:
it takes `&self` and returns only the list, no state change. -/
def get_all_tweets (s : TwitterContract) (from_index limit : Option Nat) :
    List Tweet :=
  let start := from_index.getD 0
  let limit_val := limit.getD 10
  (((s.tweets.iter.drop start).take limit_val).map Prod.snd)

/-- Embeds `get_tweet_by_id`: plain lookup. -/
def get_tweet_by_id (s : TwitterContract) (tweet_id : Nat) : Option Tweet :=
  s.tweets.get tweet_id

/-- The loop body of `get_tweets_by_author`: scan the remaining entries
carrying the output vector, the count of matches already pushed, and the
running index among matching tweets; push when `current_index >= start`
and `count < limit_val`, and break out of the loop as soon as
`count >= limit_val && current_index > start`. -/
def byAuthorLoop (author_id : String) (start limit_val : Nat) :
    List (Nat × Tweet) → List Tweet → Nat → Nat → List Tweet
  | [], author_tweets, _, _ => author_tweets
  | (_, tweet) :: rest, author_tweets, count, current_index =>
    let st :=
      if tweet.author = author_id then
        if current_index ≥ start ∧ count < limit_val then
          (author_tweets ++ [tweet], count + 1, current_index + 1)
        else
          (author_tweets, count, current_index + 1)
      else
        (author_tweets, count, current_index)
    if st.2.1 ≥ limit_val ∧ st.2.2 > start then st.1
    else byAuthorLoop author_id start limit_val rest st.1 st.2.1 st.2.2

/-- Embeds `get_tweets_by_author`: defaults as in `get_all_tweets`, then the
manual filter-and-paginate scan with the early-exit optimization. -/
def get_tweets_by_author (s : TwitterContract) (author_id : String)
    (from_index limit : Option Nat) : List Tweet :=
  let start := from_index.getD 0
  let limit_val := limit.getD 10
  byAuthorLoop author_id start limit_val s.tweets.iter [] 0 0

/-- Written from the spec's words, for the refinement claim: "take the full
ascending enumeration of all posts, filter to those whose author equals the
given identity, then slice the matches [offset, offset+limit)". -/
def listByAuthorNaive (s : TwitterContract) (author_id : String)
    (start limit_val : Nat) : List Tweet :=
  ((((s.tweets.iter.map Prod.snd).filter (fun t => t.author = author_id)).drop
      start).take limit_val)

/-- One mutating operation of the contract, with its host-supplied inputs. -/
inductive Op where
  | create (author text : String) (timestamp : Nat)
  | like (tweet_id : Nat)
  | delete (tweet_id : Nat) (caller : String)
deriving Repr, DecidableEq

/-- Apply one operation to the state, discarding the returned value. -/
def applyOp (s : TwitterContract) : Op → TwitterContract
  | .create a t ts => (post_tweet s a t ts).2
  | .like tweet_id => (like_tweet s tweet_id).2
  | .delete tweet_id c => delete_tweet s tweet_id c

/-- Run a sequence of operations from a state. -/
def run (s : TwitterContract) (ops : List Op) : TwitterContract :=
  ops.foldl applyOp s

/-- The ids returned by the `create` operations along a run, in call order. -/
def runCreates : TwitterContract → List Op → List Nat
  | _, [] => []
  | s, op :: rest =>
    match op with
    | .create a t ts => (post_tweet s a t ts).1.id :: runCreates (applyOp s op) rest
    | _ => runCreates (applyOp s op) rest

/-- Whether an operation is a `create`. -/
def Op.isCreate : Op → Bool
  | .create _ _ _ => true
  | _ => false

/-- Number of `create` operations in a sequence. -/
def countCreates (ops : List Op) : Nat := (ops.filter Op.isCreate).length

/-- N sequential `like_tweet` calls on one id: the state after each call
feeds the next call. -/
def likeN (s : TwitterContract) (tweet_id : Nat) : Nat → TwitterContract
  | 0 => s
  | n + 1 => (like_tweet (likeN s tweet_id n) tweet_id).2

/-- The keys currently present in the store. -/
def storeKeys (s : TwitterContract) : List Nat := s.tweets.entries.map Prod.fst

/-- The stored posts, in enumeration order. -/
def allPosts (s : TwitterContract) : List Tweet := s.tweets.entries.map Prod.snd

/-- The state invariant: every key is below the allocator, keys are strictly
increasing in enumeration order, and each stored tweet's `id` field equals
its key. -/
structure StoreInv (s : TwitterContract) : Prop where
  keys_lt : ∀ k ∈ storeKeys s, k < s.next_tweet_id
  keys_sorted : (storeKeys s).Pairwise (· < ·)
  id_eq_key : ∀ e ∈ s.tweets.entries, e.2.id = e.1

/-- Replacing the value at key `k` rewrites what lookup of `k` finds, provided
some entry with key `k` exists. -/
theorem find?_replace_hit (k : Nat) (v : Tweet) :
    ∀ l : List (Nat × Tweet), (l.find? (fun e => e.1 = k)).isSome →
      ((l.map (fun e => if e.1 = k then (e.1, v) else e)).find?
        (fun e => e.1 = k)) = some (k, v) := by
  intro l
  induction l with
  | nil => intro hs; simp [List.find?] at hs
  | cons e rest ih =>
    intro hs
    by_cases h : e.1 = k
    · rw [List.map_cons, if_pos h, List.find?_cons]
      simp [h]
    · rw [List.map_cons, if_neg h, List.find?_cons]
      rw [List.find?_cons] at hs
      have hd : decide (e.1 = k) = false := by simp [h]
      simp only [hd] at hs ⊢
      exact ih hs

/-- Filtering out key `k` does not change lookup of a different key `j`. -/
theorem find?_filter_ne (k j : Nat) (hjk : j ≠ k) :
    ∀ l : List (Nat × Tweet),
      ((l.filter (fun e => ¬ e.1 = k)).find? (fun e => e.1 = j)) =
        l.find? (fun e => e.1 = j) := by
  intro l
  induction l with
  | nil => simp
  | cons e rest ih =>
    rw [List.filter_cons, List.find?_cons]
    by_cases h : e.1 = k
    · have hj : decide (e.1 = j) = false := by simp; omega
      have hk : decide (¬ e.1 = k) = false := by simp [h]
      simp only [hk, Bool.false_eq_true, if_false, hj, ih]
    · have hk : decide (¬ e.1 = k) = true := by simp [h]
      simp only [hk, if_true, List.find?_cons]
      by_cases hj : e.1 = j
      · have hj' : decide (e.1 = j) = true := by simp [hj]
        simp only [hj']
      · have hj' : decide (e.1 = j) = false := by simp [hj]
        simp only [hj', ih]

/-- Looking up the key just inserted yields the inserted value. -/
theorem IterableMap.get_insert (m : IterableMap) (k : Nat) (v : Tweet) :
    (m.insert k v).get k = some v := by
  unfold IterableMap.insert IterableMap.get
  by_cases h : m.entries.any (fun e => e.1 = k)
  · rw [if_pos h]
    have hs : (m.entries.find? (fun e => e.1 = k)).isSome := by
      rw [List.find?_isSome]
      exact List.any_eq_true.mp h
    rw [find?_replace_hit k v m.entries hs]
    rfl
  · rw [if_neg h]
    have hnone : m.entries.find? (fun e => e.1 = k) = none := by
      rw [List.find?_eq_none]
      intro e he
      intro hk
      exact h (List.any_eq_true.mpr ⟨e, he, hk⟩)
    show ((m.entries ++ [(k, v)]).find? (fun e => e.1 = k)).map Prod.snd = some v
    rw [List.find?_append, hnone]
    simp [List.find?]

/-- Inserting a key not yet present appends the entry at the end. -/
theorem IterableMap.insert_fresh (m : IterableMap) (k : Nat) (v : Tweet)
    (h : k ∉ m.entries.map Prod.fst) :
    (m.insert k v).entries = m.entries ++ [(k, v)] := by
  unfold IterableMap.insert
  have hany : m.entries.any (fun e => e.1 = k) = false := by
    rw [List.any_eq_false]
    intro e he hk
    exact h (List.mem_map.mpr ⟨e, he, by simpa using hk⟩)
  simp [hany]

/-- Updating a value changes neither the key list nor its order. -/
theorem IterableMap.keys_updateValue (m : IterableMap) (k : Nat) (v : Tweet) :
    (m.updateValue k v).entries.map Prod.fst = m.entries.map Prod.fst := by
  unfold IterableMap.updateValue
  simp only [List.map_map]
  refine List.map_congr_left ?_
  intro e _
  by_cases h : e.1 = k <;> simp [h]

/-- Lookup after an in-place update at the same key returns the new value
whenever the key was present. -/
theorem IterableMap.get_updateValue_hit (m : IterableMap) (k : Nat) (v t : Tweet)
    (h : m.get k = some t) :
    (m.updateValue k v).get k = some v := by
  unfold IterableMap.get at h
  unfold IterableMap.updateValue IterableMap.get
  have hs : (m.entries.find? (fun e => e.1 = k)).isSome := by
    cases hfind : m.entries.find? (fun e => e.1 = k) with
    | none => rw [hfind] at h; exact absurd h (by simp)
    | some e => simp [hfind]
  rw [find?_replace_hit k v m.entries hs]
  rfl

/-- Lookup of a removed key is absent. -/
theorem IterableMap.get_remove_self (m : IterableMap) (k : Nat) :
    (m.remove k).get k = none := by
  unfold IterableMap.remove IterableMap.get
  have : (m.entries.filter (fun e => ¬ e.1 = k)).find? (fun e => e.1 = k) = none := by
    rw [List.find?_eq_none]
    intro e he
    have := (List.mem_filter.mp he).2
    simpa using this
  rw [this]
  rfl

/-- Removal of one key does not change lookup of any other key. -/
theorem IterableMap.get_remove_ne (m : IterableMap) (k j : Nat) (hjk : j ≠ k) :
    (m.remove k).get j = m.get j := by
  unfold IterableMap.remove IterableMap.get
  rw [find?_filter_ne k j hjk]

/-- A present key appears in the key list. -/
theorem IterableMap.get_some_mem (m : IterableMap) (k : Nat) (t : Tweet)
    (h : m.get k = some t) : k ∈ m.entries.map Prod.fst := by
  unfold IterableMap.get at h
  cases hfind : m.entries.find? (fun e => e.1 = k) with
  | none => rw [hfind] at h; exact absurd h (by simp)
  | some e =>
    have hmem := List.mem_of_find?_eq_some hfind
    have hk := List.find?_some hfind
    have : e.1 = k := by simpa using hk
    exact List.mem_map.mpr ⟨e, hmem, this⟩

/-- A key absent from the key list looks up to `none`. -/
theorem IterableMap.get_not_mem (m : IterableMap) (k : Nat)
    (h : k ∉ m.entries.map Prod.fst) : m.get k = none := by
  unfold IterableMap.get
  have : m.entries.find? (fun e => e.1 = k) = none := by
    rw [List.find?_eq_none]
    intro e he hk
    exact h (List.mem_map.mpr ⟨e, he, by simpa using hk⟩)
  rw [this]
  rfl

/-- Destructs a successful lookup into the underlying entry. -/
theorem IterableMap.get_some_elim (m : IterableMap) (k : Nat) (t : Tweet)
    (h : m.get k = some t) : ∃ e ∈ m.entries, e.1 = k ∧ e.2 = t := by
  unfold IterableMap.get at h
  cases hfind : m.entries.find? (fun e => e.1 = k) with
  | none => rw [hfind] at h; exact absurd h (by simp)
  | some e =>
    refine ⟨e, List.mem_of_find?_eq_some hfind, by simpa using List.find?_some hfind, ?_⟩
    rw [hfind] at h
    simpa using h

/-- The freshly initialized store satisfies the invariant. -/
theorem storeInv_new : StoreInv TwitterContract.new := by
  refine ⟨?_, ?_, ?_⟩
  · intro k hk
    simp [TwitterContract.new, storeKeys] at hk
  · simp [TwitterContract.new, storeKeys]
  · intro e he
    simp [TwitterContract.new] at he

/-- Posting preserves the invariant. -/
theorem storeInv_post (s : TwitterContract) (h : StoreInv s)
    (author text : String) (ts : Nat) : StoreInv (post_tweet s author text ts).2 := by
  have hfresh : s.next_tweet_id ∉ s.tweets.entries.map Prod.fst := by
    intro hmem
    exact absurd (h.keys_lt _ hmem) (by omega)
  have hent : ((post_tweet s author text ts).2).tweets.entries =
      s.tweets.entries ++ [(s.next_tweet_id,
        { id := s.next_tweet_id, author := author, text := text,
          timestamp := ts, likes := 0 })] := by
    unfold post_tweet
    exact IterableMap.insert_fresh s.tweets s.next_tweet_id _ hfresh
  have hnext : ((post_tweet s author text ts).2).next_tweet_id = s.next_tweet_id + 1 := rfl
  refine ⟨?_, ?_, ?_⟩
  · intro k hk
    rw [storeKeys, hent, List.map_append] at hk
    rw [hnext]
    rcases List.mem_append.mp hk with h1 | h2
    · have := h.keys_lt k h1
      omega
    · simp at h2
      omega
  · rw [storeKeys, hent, List.map_append]
    rw [List.pairwise_append]
    refine ⟨h.keys_sorted, by simp, ?_⟩
    intro a ha b hb
    simp at hb
    subst hb
    exact h.keys_lt a ha
  · intro e he
    rw [hent] at he
    rcases List.mem_append.mp he with h1 | h2
    · exact h.id_eq_key e h1
    · simp at h2
      subst h2
      rfl

/-- Liking preserves the invariant. -/
theorem storeInv_like (s : TwitterContract) (h : StoreInv s) (tweet_id : Nat) :
    StoreInv (like_tweet s tweet_id).2 := by
  unfold like_tweet
  cases hget : s.tweets.get tweet_id with
  | none => exact h
  | some t =>
    rcases IterableMap.get_some_elim s.tweets tweet_id t hget with ⟨e₀, he₀, hk₀, hv₀⟩
    have htid : t.id = tweet_id := by
      have := h.id_eq_key e₀ he₀
      rw [hv₀, hk₀] at this
      exact this
    refine ⟨?_, ?_, ?_⟩
    · intro k hk
      rw [storeKeys] at hk
      simp only at hk
      rw [IterableMap.keys_updateValue] at hk
      exact h.keys_lt k hk
    · rw [storeKeys]
      simp only
      rw [IterableMap.keys_updateValue]
      exact h.keys_sorted
    · intro e he
      simp only [IterableMap.updateValue, List.mem_map] at he
      rcases he with ⟨e', he', rfl⟩
      by_cases hk : e'.1 = tweet_id
      · rw [if_pos hk]
        simpa [hk] using htid
      · rw [if_neg hk]
        exact h.id_eq_key e' he'

/-- Deleting preserves the invariant. -/
theorem storeInv_delete (s : TwitterContract) (h : StoreInv s)
    (tweet_id : Nat) (caller : String) : StoreInv (delete_tweet s tweet_id caller) := by
  unfold delete_tweet
  cases hget : s.tweets.get tweet_id with
  | none => exact h
  | some t =>
    show StoreInv (if t.author = caller then
      ⟨s.tweets.remove tweet_id, s.next_tweet_id⟩ else s)
    by_cases hauth : t.author = caller
    · rw [if_pos hauth]
      have hsub : (s.tweets.remove tweet_id).entries.Sublist s.tweets.entries :=
        List.filter_sublist s.tweets.entries
      refine ⟨?_, ?_, ?_⟩
      · intro k hk
        rw [storeKeys] at hk
        rcases List.mem_map.mp hk with ⟨e, he, rfl⟩
        exact h.keys_lt e.1 (List.mem_map.mpr ⟨e, hsub.subset he, rfl⟩)
      · exact h.keys_sorted.sublist (hsub.map Prod.fst)
      · intro e he
        exact h.id_eq_key e (hsub.subset he)
    · rw [if_neg hauth]
      exact h

/-- One step preserves the invariant. -/
theorem storeInv_applyOp (s : TwitterContract) (h : StoreInv s) (op : Op) :
    StoreInv (applyOp s op) := by
  cases op with
  | create a t ts => exact storeInv_post s h a t ts
  | like tweet_id => exact storeInv_like s h tweet_id
  | delete tweet_id c => exact storeInv_delete s h tweet_id c

/-- Any run preserves the invariant. -/
theorem storeInv_run : ∀ (ops : List Op) (s : TwitterContract),
    StoreInv s → StoreInv (run s ops)
  | [], _, h => h
  | op :: ops, s, h => storeInv_run ops (applyOp s op) (storeInv_applyOp s h op)

/-- Every state reachable from the fresh store satisfies the invariant. -/
theorem storeInv_run_new (ops : List Op) : StoreInv (run TwitterContract.new ops) :=
  storeInv_run ops TwitterContract.new storeInv_new

/-- Liking never changes the allocator. -/
theorem next_like (s : TwitterContract) (tweet_id : Nat) :
    ((like_tweet s tweet_id).2).next_tweet_id = s.next_tweet_id := by
  unfold like_tweet
  cases s.tweets.get tweet_id <;> rfl

/-- Deleting never changes the allocator. -/
theorem next_delete (s : TwitterContract) (tweet_id : Nat) (caller : String) :
    (delete_tweet s tweet_id caller).next_tweet_id = s.next_tweet_id := by
  unfold delete_tweet
  cases s.tweets.get tweet_id with
  | none => rfl
  | some t => by_cases hauth : t.author = caller <;> simp [hauth]

/-- Create-count of a cons. -/
theorem countCreates_cons (op : Op) (ops : List Op) :
    countCreates (op :: ops) = (if op.isCreate then 1 else 0) + countCreates ops := by
  cases op with
  | create a t ts =>
    simp [countCreates, Op.isCreate, List.filter_cons]
    omega
  | like tweet_id => simp [countCreates, Op.isCreate, List.filter_cons]
  | delete tweet_id c => simp [countCreates, Op.isCreate, List.filter_cons]

/-- The allocator counts exactly the creates performed. -/
theorem next_run : ∀ (ops : List Op) (s : TwitterContract),
    (run s ops).next_tweet_id = s.next_tweet_id + countCreates ops := by
  intro ops
  induction ops with
  | nil => intro s; simp [run, countCreates]
  | cons op rest ih =>
    intro s
    have hstep : run s (op :: rest) = run (applyOp s op) rest := rfl
    rw [hstep, ih, countCreates_cons]
    cases op with
    | create a t ts =>
      have : (applyOp s (.create a t ts)).next_tweet_id = s.next_tweet_id + 1 := rfl
      rw [this]
      simp [Op.isCreate]
      omega
    | like tweet_id =>
      have : (applyOp s (.like tweet_id)).next_tweet_id = s.next_tweet_id :=
        next_like s tweet_id
      rw [this]
      simp [Op.isCreate]
    | delete tweet_id c =>
      have : (applyOp s (.delete tweet_id c)).next_tweet_id = s.next_tweet_id :=
        next_delete s tweet_id c
      rw [this]
      simp [Op.isCreate]

/-- The ids handed out by the creates of a run form the contiguous range
starting at the state's allocator value. -/
theorem runCreates_range : ∀ (ops : List Op) (s : TwitterContract),
    runCreates s ops = List.range' s.next_tweet_id (countCreates ops) := by
  intro ops
  induction ops with
  | nil => intro s; simp [runCreates, countCreates]
  | cons op rest ih =>
    intro s
    cases op with
    | create a t ts =>
      have hnext : (applyOp s (.create a t ts)).next_tweet_id = s.next_tweet_id + 1 := rfl
      rw [show runCreates s (.create a t ts :: rest) =
            (post_tweet s a t ts).1.id :: runCreates (applyOp s (.create a t ts)) rest
          from rfl,
        ih, hnext, countCreates_cons]
      simp [Op.isCreate, post_tweet]
      rw [Nat.add_comm 1 (countCreates rest), List.range'_succ]
    | like tweet_id =>
      have hnext : (applyOp s (.like tweet_id)).next_tweet_id = s.next_tweet_id :=
        next_like s tweet_id
      rw [show runCreates s (.like tweet_id :: rest) =
            runCreates (applyOp s (.like tweet_id)) rest from rfl,
        ih, hnext, countCreates_cons]
      simp [Op.isCreate]
    | delete tweet_id c =>
      have hnext : (applyOp s (.delete tweet_id c)).next_tweet_id = s.next_tweet_id :=
        next_delete s tweet_id c
      rw [show runCreates s (.delete tweet_id c :: rest) =
            runCreates (applyOp s (.delete tweet_id c)) rest from rfl,
        ih, hnext, countCreates_cons]
      simp [Op.isCreate]

/-- Running a concatenation runs the pieces in order. -/
theorem run_append (s : TwitterContract) (l₁ l₂ : List Op) :
    run s (l₁ ++ l₂) = run (run s l₁) l₂ :=
  List.foldl_append applyOp s l₁ l₂

/-- Unrolls one iteration of the author scan into explicit branches. -/
theorem byAuthorLoop_cons (a : String) (st lim : Nat) (k : Nat) (t : Tweet)
    (rest : List (Nat × Tweet)) (acc : List Tweet) (count ci : Nat) :
    byAuthorLoop a st lim ((k, t) :: rest) acc count ci =
      if t.author = a then
        (if ci ≥ st ∧ count < lim then
          (if count + 1 ≥ lim ∧ ci + 1 > st then acc ++ [t]
           else byAuthorLoop a st lim rest (acc ++ [t]) (count + 1) (ci + 1))
         else
          (if count ≥ lim ∧ ci + 1 > st then acc
           else byAuthorLoop a st lim rest acc count (ci + 1)))
      else
        (if count ≥ lim ∧ ci > st then acc
         else byAuthorLoop a st lim rest acc count ci) := by
  by_cases hm : t.author = a
  · by_cases hp : ci ≥ st ∧ count < lim
    · simp [byAuthorLoop, hm, hp]
    · simp [byAuthorLoop, hm, hp]
  · simp [byAuthorLoop, hm]

/-- The early-exit author scan computes the naive filter-then-slice window:
starting from intermediate loop state `(acc, count, ci)` whose counters are
consistent (`count = min (ci - st) lim`) and for which the loop's break
condition has not yet fired, the scan appends exactly the remaining window
of the filtered enumeration. -/
theorem byAuthorLoop_spec (a : String) (st lim : Nat) :
    ∀ (l : List (Nat × Tweet)) (acc : List Tweet) (count ci : Nat),
      count = min (ci - st) lim → (count < lim ∨ ci ≤ st) →
      byAuthorLoop a st lim l acc count ci =
        acc ++ (((l.map Prod.snd).filter (fun t => t.author = a)).drop (st - ci)).take
          (lim - count) := by
  intro l
  induction l with
  | nil =>
    intro acc count ci _ _
    simp [byAuthorLoop]
  | cons e rest ih =>
    intro acc count ci hinv hok
    obtain ⟨k, t⟩ := e
    rw [byAuthorLoop_cons]
    by_cases hm : t.author = a
    · rw [if_pos hm]
      have hfilter : ((((k, t) :: rest).map Prod.snd).filter (fun t => t.author = a)) =
          t :: ((rest.map Prod.snd).filter (fun t => t.author = a)) := by
        simp [hm]
      rw [hfilter]
      by_cases hp : ci ≥ st ∧ count < lim
      · rw [if_pos hp]
        by_cases hbr : count + 1 ≥ lim ∧ ci + 1 > st
        · rw [if_pos hbr]
          have h1 : st - ci = 0 := by omega
          have h2 : lim - count = 1 := by omega
          rw [h1, h2, List.drop_zero]
          simp
        · rw [if_neg hbr]
          rw [ih (acc ++ [t]) (count + 1) (ci + 1) (by omega) (by omega)]
          have h1 : st - ci = 0 := by omega
          have h2 : st - (ci + 1) = 0 := by omega
          have h3 : lim - count = (lim - (count + 1)) + 1 := by omega
          rw [h1, h2, h3, List.drop_zero, List.drop_zero, List.take_succ_cons]
          simp
      · rw [if_neg hp]
        by_cases hbr : count ≥ lim ∧ ci + 1 > st
        · rw [if_pos hbr]
          have h1 : lim - count = 0 := by omega
          rw [h1, List.take_zero]
          simp
        · rw [if_neg hbr]
          rw [ih acc count (ci + 1) (by omega) (by omega)]
          have h1 : st - ci = (st - (ci + 1)) + 1 := by omega
          rw [h1, List.drop_succ_cons]
    · rw [if_neg hm]
      have hfilter : ((((k, t) :: rest).map Prod.snd).filter (fun t => t.author = a)) =
          ((rest.map Prod.snd).filter (fun t => t.author = a)) := by
        simp [hm]
      rw [if_neg (show ¬ (count ≥ lim ∧ ci > st) by omega)]
      rw [ih acc count ci hinv hok, hfilter]

/-- Under the invariant, the ids of the enumerated posts are the keys. -/
theorem allPosts_ids (s : TwitterContract) (h : StoreInv s) :
    (allPosts s).map Tweet.id = storeKeys s := by
  unfold allPosts storeKeys
  rw [List.map_map]
  refine List.map_congr_left ?_
  intro e he
  exact h.id_eq_key e he

/-- Pagination is slicing: the result of `get_all_tweets` is always the
enumeration with `offset` entries dropped and at most `limit` taken. -/
theorem get_all_tweets_slice (s : TwitterContract) (from_index limit : Option Nat) :
    get_all_tweets s from_index limit =
      ((allPosts s).drop (from_index.getD 0)).take (limit.getD 10) := by
  unfold get_all_tweets allPosts IterableMap.iter
  rw [← List.map_drop, ← List.map_take]

/-- C1: for every store state and every author, offset and limit (defaults
included), `get_tweets_by_author` returns the same sequence as the naive
reference — filter the full enumeration by author, then slice the matches
`[offset, offset+limit)`; the early-exit scan never stops a match early. -/
theorem author_scan_matches_naive (s : TwitterContract) (author_id : String)
    (from_index limit : Option Nat) :
    get_tweets_by_author s author_id from_index limit =
      listByAuthorNaive s author_id (from_index.getD 0) (limit.getD 10) := by
  unfold get_tweets_by_author listByAuthorNaive
  rw [byAuthorLoop_spec author_id (from_index.getD 0) (limit.getD 10)
    s.tweets.iter [] 0 0 (by omega) (by omega)]
  simp

/-- C2: in every state reachable by any sequence of create, like and delete
operations, the store enumeration — what `get_all_tweets` walks before
offset/limit restriction — lists the posts in strictly ascending id order
(insertion order), in particular after any deletion, and taking the full
length returns exactly that ascending enumeration. -/
theorem enumeration_ascending (ops : List Op) :
    ((allPosts (run TwitterContract.new ops)).map Tweet.id).Pairwise (· < ·) ∧
    get_all_tweets (run TwitterContract.new ops) none
        (some (allPosts (run TwitterContract.new ops)).length) =
      allPosts (run TwitterContract.new ops) := by
  have hinv := storeInv_run_new ops
  constructor
  · rw [allPosts_ids _ hinv]
    exact hinv.keys_sorted
  · rw [get_all_tweets_slice]
    simp

/-- C3: for every reachable state and every offset and limit (defaults 0 and
10), `get_all_tweets` equals the ascending-id-ordered full enumeration
sliced `[offset, offset+limit)` clipped to the available length, and an
offset at or past the number of stored posts yields the empty sequence. -/
theorem get_all_tweets_paginates (ops : List Op) (from_index limit : Option Nat) :
    ((allPosts (run TwitterContract.new ops)).map Tweet.id).Pairwise (· < ·) ∧
    get_all_tweets (run TwitterContract.new ops) from_index limit =
      ((allPosts (run TwitterContract.new ops)).drop (from_index.getD 0)).take
        (limit.getD 10) ∧
    ((allPosts (run TwitterContract.new ops)).length ≤ from_index.getD 0 →
      get_all_tweets (run TwitterContract.new ops) from_index limit = []) := by
  have hinv := storeInv_run_new ops
  refine ⟨?_, get_all_tweets_slice _ _ _, ?_⟩
  · rw [allPosts_ids _ hinv]
    exact hinv.keys_sorted
  · intro hlen
    rw [get_all_tweets_slice]
    rw [List.drop_eq_nil_of_le hlen]
    simp

/-- C4: the ids returned by the creates of any run from the fresh store are
exactly `0, 1, …, N-1` in call order, `N` being the number of creates,
whatever likes and deletes are interleaved; and once an id present in the
store has been deleted, no later create ever returns that id again. -/
theorem create_ids_sequential :
    (∀ ops : List Op, runCreates TwitterContract.new ops =
      List.range (countCreates ops)) ∧
    (∀ (ops₁ : List Op) (k : Nat) (c : String) (ops₂ : List Op),
      k ∈ storeKeys (run TwitterContract.new ops₁) →
      ∀ i ∈ runCreates (run TwitterContract.new (ops₁ ++ [Op.delete k c])) ops₂,
        i ≠ k) := by
  constructor
  · intro ops
    rw [runCreates_range, show TwitterContract.new.next_tweet_id = 0 from rfl,
      List.range_eq_range']
  · intro ops₁ k c ops₂ hk i hi
    have hinv := storeInv_run_new ops₁
    have hklt := hinv.keys_lt k hk
    have hnext : (run TwitterContract.new (ops₁ ++ [Op.delete k c])).next_tweet_id =
        (run TwitterContract.new ops₁).next_tweet_id := by
      rw [run_append]
      exact next_delete (run TwitterContract.new ops₁) k c
    rw [runCreates_range] at hi
    have hrange := List.mem_range'_1.mp hi
    omega

/-- C4 witness: with "alice" creating id 0, then deleting it, a subsequent
create by "bob" returns id 1 and in particular never 0 again. -/
theorem create_ids_sequential_witness :
    (0 : Nat) ∈ storeKeys (run TwitterContract.new [Op.create "alice" "hi" 0]) ∧
    1 ∈ runCreates (run TwitterContract.new
        ([Op.create "alice" "hi" 0] ++ [Op.delete 0 "alice"]))
      [Op.create "bob" "x" 1] ∧
    (1 : Nat) ≠ 0 := by
  refine ⟨by decide, by decide, ?_⟩
  exact create_ids_sequential.2 [Op.create "alice" "hi" 0] 0 "alice"
    [Op.create "bob" "x" 1] (by decide) 1 (by decide)

/-- C7: in every reachable state the allocator equals the number of creates
ever performed (deletions never decrease it), and every key present in the
store is strictly below the allocator. -/
theorem allocator_counts_creates (ops : List Op) :
    (run TwitterContract.new ops).next_tweet_id = countCreates ops ∧
    ∀ k ∈ storeKeys (run TwitterContract.new ops),
      k < (run TwitterContract.new ops).next_tweet_id := by
  constructor
  · rw [next_run]
    show 0 + countCreates ops = countCreates ops
    omega
  · exact (storeInv_run_new ops).keys_lt

/-- C7 witness: after one create the allocator is 1 and the lone key 0 is
below it. -/
theorem allocator_counts_creates_witness :
    (run TwitterContract.new [Op.create "alice" "hi" 0]).next_tweet_id =
      countCreates [Op.create "alice" "hi" 0] ∧
    (0 : Nat) ∈ storeKeys (run TwitterContract.new [Op.create "alice" "hi" 0]) ∧
    0 < (run TwitterContract.new [Op.create "alice" "hi" 0]).next_tweet_id := by
  refine ⟨(allocator_counts_creates [Op.create "alice" "hi" 0]).1, by decide, ?_⟩
  exact (allocator_counts_creates [Op.create "alice" "hi" 0]).2 0 (by decide)

/-- C3 witness: one post stored, offset 5 ≥ 1, result empty. -/
theorem get_all_tweets_paginates_witness :
    (allPosts (run TwitterContract.new [Op.create "alice" "hi" 0])).length ≤
      (some 5 : Option Nat).getD 0 ∧
    get_all_tweets (run TwitterContract.new [Op.create "alice" "hi" 0])
      (some 5) none = [] := by
  refine ⟨by decide, ?_⟩
  exact (get_all_tweets_paginates [Op.create "alice" "hi" 0] (some 5) none).2.2
    (by decide)

/-- Deleting an id that looks up to nothing is the identity on the state. -/
theorem delete_absent (s : TwitterContract) (tweet_id : Nat) (caller : String)
    (h : get_tweet_by_id s tweet_id = none) : delete_tweet s tweet_id caller = s := by
  unfold delete_tweet
  unfold get_tweet_by_id at h
  rw [h]

/-- C5: deleting a stored post with a caller other than its author leaves it
retrievable unchanged via `get_tweet_by_id`; deleting with the author as
caller removes it; deleting an absent id leaves the whole state unchanged.
`delete_tweet` is a total function into states — every call completes
normally, no error value exists. -/
theorem delete_ownership_gate :
    (∀ (s : TwitterContract) (tweet_id : Nat) (t : Tweet) (caller : String),
      get_tweet_by_id s tweet_id = some t →
      (caller ≠ t.author →
        get_tweet_by_id (delete_tweet s tweet_id caller) tweet_id = some t) ∧
      (caller = t.author →
        get_tweet_by_id (delete_tweet s tweet_id caller) tweet_id = none)) ∧
    (∀ (s : TwitterContract) (tweet_id : Nat) (caller : String),
      get_tweet_by_id s tweet_id = none → delete_tweet s tweet_id caller = s) := by
  constructor
  · intro s tweet_id t caller hget
    have hdel : delete_tweet s tweet_id caller =
        (if t.author = caller then ⟨s.tweets.remove tweet_id, s.next_tweet_id⟩
         else s) := by
      unfold delete_tweet
      unfold get_tweet_by_id at hget
      rw [hget]
    constructor
    · intro hne
      rw [hdel, if_neg (fun hh => hne hh.symm)]
      exact hget
    · intro heq
      rw [hdel, if_pos heq.symm]
      show (s.tweets.remove tweet_id).get tweet_id = none
      exact IterableMap.get_remove_self s.tweets tweet_id
  · intro s tweet_id caller h
    exact delete_absent s tweet_id caller h

/-- C5 witness: "alice" posts tweet 0; "bob" deleting it leaves it stored
unchanged, "alice" deleting it removes it. -/
theorem delete_ownership_gate_witness :
    get_tweet_by_id (post_tweet TwitterContract.new "alice" "hi" 7).2 0 =
      some (post_tweet TwitterContract.new "alice" "hi" 7).1 ∧
    "bob" ≠ (post_tweet TwitterContract.new "alice" "hi" 7).1.author ∧
    get_tweet_by_id
        (delete_tweet (post_tweet TwitterContract.new "alice" "hi" 7).2 0 "bob") 0 =
      some (post_tweet TwitterContract.new "alice" "hi" 7).1 ∧
    get_tweet_by_id
        (delete_tweet (post_tweet TwitterContract.new "alice" "hi" 7).2 0 "alice") 0 =
      none := by
  refine ⟨by decide, by decide, ?_, ?_⟩
  · exact (delete_ownership_gate.1 (post_tweet TwitterContract.new "alice" "hi" 7).2 0
      (post_tweet TwitterContract.new "alice" "hi" 7).1 "bob" (by decide)).1 (by decide)
  · exact (delete_ownership_gate.1 (post_tweet TwitterContract.new "alice" "hi" 7).2 0
      (post_tweet TwitterContract.new "alice" "hi" 7).1 "alice" (by decide)).2 (by decide)

/-- C8: deleting an id never created (at or above the allocator of a
reachable state), or any id absent from the store (hence also one already
deleted), completes normally and leaves the entire state — posts mapping
and allocator — exactly unchanged. -/
theorem delete_missing_noop :
    (∀ (ops : List Op) (tweet_id : Nat) (caller : String),
      (run TwitterContract.new ops).next_tweet_id ≤ tweet_id →
      delete_tweet (run TwitterContract.new ops) tweet_id caller =
        run TwitterContract.new ops) ∧
    (∀ (s : TwitterContract) (tweet_id : Nat) (caller : String),
      get_tweet_by_id s tweet_id = none → delete_tweet s tweet_id caller = s) := by
  constructor
  · intro ops tweet_id caller hge
    apply delete_absent
    unfold get_tweet_by_id
    apply IterableMap.get_not_mem
    intro hmem
    have := (storeInv_run_new ops).keys_lt tweet_id hmem
    omega
  · intro s tweet_id caller h
    exact delete_absent s tweet_id caller h

/-- C8 witness: deleting id 5 after one create, and id 3 from the fresh
store, are both exact no-ops. -/
theorem delete_missing_noop_witness :
    (run TwitterContract.new [Op.create "alice" "hi" 0]).next_tweet_id ≤ 5 ∧
    delete_tweet (run TwitterContract.new [Op.create "alice" "hi" 0]) 5 "bob" =
      run TwitterContract.new [Op.create "alice" "hi" 0] ∧
    get_tweet_by_id TwitterContract.new 3 = none ∧
    delete_tweet TwitterContract.new 3 "alice" = TwitterContract.new := by
  refine ⟨by decide, ?_, by decide, ?_⟩
  · exact delete_missing_noop.1 [Op.create "alice" "hi" 0] 5 "bob" (by decide)
  · exact delete_missing_noop.2 TwitterContract.new 3 "alice" (by decide)

/-- C9: a delete call, whatever its target and caller, never changes the
allocator and never changes the stored post at any other id — the entry
with the given id is the only thing it can affect. -/
theorem delete_frame (s : TwitterContract) (tweet_id : Nat) (caller : String)
    (j : Nat) :
    (delete_tweet s tweet_id caller).next_tweet_id = s.next_tweet_id ∧
    (j ≠ tweet_id →
      get_tweet_by_id (delete_tweet s tweet_id caller) j = get_tweet_by_id s j) := by
  refine ⟨next_delete s tweet_id caller, ?_⟩
  intro hne
  unfold delete_tweet
  cases hget : s.tweets.get tweet_id with
  | none => rfl
  | some t =>
    show get_tweet_by_id
      (if t.author = caller then ⟨s.tweets.remove tweet_id, s.next_tweet_id⟩ else s) j =
      get_tweet_by_id s j
    by_cases hauth : t.author = caller
    · rw [if_pos hauth]
      show (s.tweets.remove tweet_id).get j = s.tweets.get j
      exact IterableMap.get_remove_ne s.tweets tweet_id j hne
    · rw [if_neg hauth]

/-- C9 witness: "alice" deleting tweet 0 leaves tweet 1 stored untouched and
the allocator at 2. -/
theorem delete_frame_witness :
    (delete_tweet (run TwitterContract.new
        [Op.create "alice" "hi" 0, Op.create "bob" "yo" 1]) 0 "alice").next_tweet_id =
      (run TwitterContract.new
        [Op.create "alice" "hi" 0, Op.create "bob" "yo" 1]).next_tweet_id ∧
    (1 : Nat) ≠ 0 ∧
    get_tweet_by_id (delete_tweet (run TwitterContract.new
        [Op.create "alice" "hi" 0, Op.create "bob" "yo" 1]) 0 "alice") 1 =
      get_tweet_by_id (run TwitterContract.new
        [Op.create "alice" "hi" 0, Op.create "bob" "yo" 1]) 1 := by
  refine ⟨(delete_frame _ 0 "alice" 1).1, by decide, ?_⟩
  exact (delete_frame (run TwitterContract.new
    [Op.create "alice" "hi" 0, Op.create "bob" "yo" 1]) 0 "alice" 1).2 (by decide)

/-- A successful like stores and returns the incremented record. -/
theorem like_tweet_hit (s : TwitterContract) (tweet_id : Nat) (t : Tweet)
    (h : get_tweet_by_id s tweet_id = some t) :
    (like_tweet s tweet_id).1 = some { t with likes := (t.likes + 1) % u64Mod } ∧
    get_tweet_by_id (like_tweet s tweet_id).2 tweet_id =
      some { t with likes := (t.likes + 1) % u64Mod } := by
  unfold get_tweet_by_id at h
  unfold like_tweet get_tweet_by_id
  rw [h]
  exact ⟨rfl, IterableMap.get_updateValue_hit s.tweets tweet_id _ t h⟩

/-- What `like_tweet` returns always equals what a lookup of the same id in
the state it leaves behind returns. -/
theorem like_returns_stored (s : TwitterContract) (tweet_id : Nat) :
    (like_tweet s tweet_id).1 = get_tweet_by_id (like_tweet s tweet_id).2 tweet_id := by
  cases hget : s.tweets.get tweet_id with
  | none =>
    have hmiss : like_tweet s tweet_id = (none, s) := by
      unfold like_tweet
      rw [hget]
    rw [hmiss]
    show (none : Option Tweet) = s.tweets.get tweet_id
    rw [hget]
  | some t =>
    have hhit := like_tweet_hit s tweet_id t hget
    rw [hhit.1, hhit.2]

/-- Like on an absent id returns `none` and leaves the state fully
unchanged. -/
theorem like_tweet_miss (s : TwitterContract) (tweet_id : Nat)
    (h : get_tweet_by_id s tweet_id = none) : like_tweet s tweet_id = (none, s) := by
  unfold get_tweet_by_id at h
  unfold like_tweet
  rw [h]

/-- Sequential likes of a fresh post accumulate modulo 2^64. -/
theorem likeN_fresh (s : TwitterContract) (author text : String) (ts : Nat) :
    ∀ n : Nat,
      get_tweet_by_id (likeN (post_tweet s author text ts).2 s.next_tweet_id n)
        s.next_tweet_id =
      some { id := s.next_tweet_id, author := author, text := text,
             timestamp := ts, likes := n % u64Mod } := by
  intro n
  induction n with
  | zero =>
    show get_tweet_by_id (post_tweet s author text ts).2 s.next_tweet_id = _
    unfold get_tweet_by_id post_tweet
    rw [IterableMap.get_insert, Nat.zero_mod]
  | succ n ih =>
    show get_tweet_by_id
      (like_tweet (likeN (post_tweet s author text ts).2 s.next_tweet_id n)
        s.next_tweet_id).2 s.next_tweet_id = _
    rw [(like_tweet_hit _ s.next_tweet_id _ ih).2]
    have hmod : (n % u64Mod + 1) % u64Mod = (n + 1) % u64Mod := by
      have hM : u64Mod = 18446744073709551616 := by norm_num [u64Mod]
      rw [hM]
      omega
    rw [hmod]

/-- C6 counterexample: after exactly 2^64 sequential likes of a freshly
created post, the stored u64 counter has wrapped around to 0 rather than
holding 2^64, refuting the unbounded reading of the accumulation claim. -/
theorem like_accumulation_cex :
    (get_tweet_by_id
        (likeN (post_tweet TwitterContract.new "alice" "hi" 0).2 0 (2 ^ 64)) 0).map
      Tweet.likes ≠ some (2 ^ 64) := by
  have h0 : get_tweet_by_id
      (likeN (post_tweet TwitterContract.new "alice" "hi" 0).2 0 (2 ^ 64)) 0 =
      some { id := 0, author := "alice", text := "hi", timestamp := 0,
             likes := (2 ^ 64) % u64Mod } :=
    likeN_fresh TwitterContract.new "alice" "hi" 0 (2 ^ 64)
  rw [h0]
  intro hcontra
  have hc2 : (2 ^ 64) % u64Mod = 2 ^ 64 := Option.some.inj hcontra
  rw [show u64Mod = 18446744073709551616 from by norm_num [u64Mod]] at hc2
  omega

/-- C6 (amended): for every `N < 2^64`, N sequential likes on a freshly
created post leave its stored likes counter at exactly N; every like call
returns exactly the post as stored after the call; a like on an absent id
returns `none` and leaves the whole state — size and every stored post —
unchanged. The bound is forced by the wraparound counterexample at
`N = 2^64`. -/
theorem like_accumulation :
    (∀ (s : TwitterContract) (author text : String) (ts n : Nat),
      n < u64Mod →
      get_tweet_by_id (likeN (post_tweet s author text ts).2 s.next_tweet_id n)
        s.next_tweet_id =
        some { id := s.next_tweet_id, author := author, text := text,
               timestamp := ts, likes := n }) ∧
    (∀ (s : TwitterContract) (tweet_id : Nat),
      (like_tweet s tweet_id).1 =
        get_tweet_by_id (like_tweet s tweet_id).2 tweet_id) ∧
    (∀ (s : TwitterContract) (tweet_id : Nat),
      get_tweet_by_id s tweet_id = none → like_tweet s tweet_id = (none, s)) := by
  refine ⟨?_, like_returns_stored, like_tweet_miss⟩
  intro s author text ts n hn
  rw [likeN_fresh, Nat.mod_eq_of_lt hn]

/-- C6 witness: three likes on a fresh post store likes = 3; liking the
absent id 3 on the fresh store returns `none` and changes nothing. -/
theorem like_accumulation_witness :
    (3 : Nat) < u64Mod ∧
    get_tweet_by_id (likeN (post_tweet TwitterContract.new "alice" "hi" 0).2 0 3) 0 =
      some { id := 0, author := "alice", text := "hi", timestamp := 0, likes := 3 } ∧
    get_tweet_by_id TwitterContract.new 3 = none ∧
    like_tweet TwitterContract.new 3 = (none, TwitterContract.new) := by
  refine ⟨by norm_num [u64Mod], ?_, by decide, ?_⟩
  · exact like_accumulation.1 TwitterContract.new "alice" "hi" 0 3 (by norm_num [u64Mod])
  · exact like_accumulation.2.2 TwitterContract.new 3 (by decide)

/-- C10: the like increment is an unguarded u64 addition, but whenever the
target post exists and its likes counter is strictly below 2^64 - 1, the
call stores and returns exactly the previous value plus one — under that
precondition no wraparound can occur. -/
theorem like_increment_no_overflow (s : TwitterContract) (tweet_id : Nat)
    (t : Tweet) (hget : get_tweet_by_id s tweet_id = some t)
    (hlt : t.likes < u64Mod - 1) :
    (like_tweet s tweet_id).1 = some { t with likes := t.likes + 1 } ∧
    get_tweet_by_id (like_tweet s tweet_id).2 tweet_id =
      some { t with likes := t.likes + 1 } := by
  have hmod : (t.likes + 1) % u64Mod = t.likes + 1 := by
    apply Nat.mod_eq_of_lt
    have hM : u64Mod = 18446744073709551616 := by norm_num [u64Mod]
    omega
  have hhit := like_tweet_hit s tweet_id t hget
  rw [hmod] at hhit
  exact hhit

/-- C10 witness: the fresh post's counter 0 is far below 2^64 - 1 and one
like stores exactly 1. -/
theorem like_increment_no_overflow_witness :
    get_tweet_by_id (post_tweet TwitterContract.new "alice" "hi" 7).2 0 =
      some (post_tweet TwitterContract.new "alice" "hi" 7).1 ∧
    (post_tweet TwitterContract.new "alice" "hi" 7).1.likes < u64Mod - 1 ∧
    get_tweet_by_id
        (like_tweet (post_tweet TwitterContract.new "alice" "hi" 7).2 0).2 0 =
      some { (post_tweet TwitterContract.new "alice" "hi" 7).1 with
             likes := (post_tweet TwitterContract.new "alice" "hi" 7).1.likes + 1 } := by
  refine ⟨by decide, by decide, ?_⟩
  exact (like_increment_no_overflow (post_tweet TwitterContract.new "alice" "hi" 7).2 0
    (post_tweet TwitterContract.new "alice" "hi" 7).1 (by decide) (by decide)).2

